import Mathlib

/-
Verification of the GCN-layer forward pass (GCNLayer in the repository
notebook) against its specification.  The layer stores an adjacency
matrix A, the self-looped adjacency A_hat = A + I, a degree matrix D
built as diag_embed (diag (A @ ones)), the normalizer
D_neg_sqrt = diag_embed (diag ((D) ^ (-0.5))), and a weight matrix W;
forward computes ReLU (D_neg_sqrt @ (A_hat @ D_neg_sqrt) @ (X @ W)).

Scalars are modelled by EV: a rational number together with the three
non-finite IEEE values (positive infinity, negative infinity, nan),
following the arithmetic of torch float tensors exactly on the
inf/nan structure.  The floating point inverse square root is modelled
by an exact rational function that agrees with the float computation on
the arguments at which the claims evaluate it (perfect squares); no
claim below depends on its value elsewhere.  Shape mismatches, which
torch reports by raising, are modelled with Except.
-/

set_option maxRecDepth 4000

/-- Extended value: a rational together with the three non-finite
floating point values.  Models the observable values of a torch float
tensor, with exact rationals in place of binary floats. -/
inductive EV where
  | fin (q : ℚ)
  | pinf
  | ninf
  | nan
deriving DecidableEq

/-- IEEE addition on extended values: nan is absorbing, opposite
infinities give nan, an infinity absorbs finite values. -/
def EV.add : EV → EV → EV
  | nan, _ => nan
  | _, nan => nan
  | fin a, fin b => fin (a + b)
  | fin _, pinf => pinf
  | fin _, ninf => ninf
  | pinf, fin _ => pinf
  | ninf, fin _ => ninf
  | pinf, pinf => pinf
  | ninf, ninf => ninf
  | pinf, ninf => nan
  | ninf, pinf => nan

/-- IEEE multiplication on extended values: nan is absorbing, zero
times an infinity is nan, otherwise infinities follow the sign rule. -/
def EV.mul : EV → EV → EV
  | nan, _ => nan
  | _, nan => nan
  | fin a, fin b => fin (a * b)
  | fin a, pinf => if 0 < a then pinf else if a < 0 then ninf else nan
  | fin a, ninf => if 0 < a then ninf else if a < 0 then pinf else nan
  | pinf, fin b => if 0 < b then pinf else if b < 0 then ninf else nan
  | ninf, fin b => if 0 < b then ninf else if b < 0 then pinf else nan
  | pinf, pinf => pinf
  | pinf, ninf => ninf
  | ninf, pinf => ninf
  | ninf, ninf => pinf

/-- Largest k below the given bound with k * k ≤ n (helper for the
integer square root, written with structural recursion so that concrete
values reduce inside the kernel). -/
def natSqrtLoop (n : Nat) : Nat → Nat
  | 0 => 0
  | k + 1 => if (k + 1) * (k + 1) ≤ n then k + 1 else natSqrtLoop n k

/-- Integer square root: the largest k with k * k ≤ n. -/
def natSqrt (n : Nat) : Nat := natSqrtLoop n n

/-- Exact stand-in for the floating point inverse square root of a
nonnegative rational, via integer square roots of the numerator and
denominator.  It agrees with the real inverse square root whenever the
numerator and denominator are perfect squares (in particular at 1 and
at every positive integer square); the claims evaluate it only there. -/
def ratInvSqrt (q : ℚ) : ℚ := (natSqrt q.den : ℚ) / (natSqrt q.num.toNat : ℚ)

/-- torch.pow (x, -0.5) on a float scalar: nan and negative arguments
give nan, zero gives positive infinity, positive infinity gives zero,
and a positive finite argument gives its inverse square root. -/
def EV.powNegHalf : EV → EV
  | nan => nan
  | pinf => fin 0
  | ninf => nan
  | fin q => if q < 0 then nan else if q = 0 then pinf else fin (ratInvSqrt q)

/-- torch relu on a float scalar: clamps below at zero, maps negative
infinity to zero, and keeps nan and positive infinity. -/
def EV.relu : EV → EV
  | nan => nan
  | pinf => pinf
  | ninf => fin 0
  | fin q => fin (max q 0)

/-- An extended value is finite when it is a rational. -/
def EV.isFinite : EV → Bool
  | fin _ => true
  | _ => false

/-- IEEE comparison x >= 0: true for nonnegative rationals and positive
infinity, false for negative values, negative infinity and nan. -/
def EV.isNonneg : EV → Bool
  | fin q => decide (0 ≤ q)
  | pinf => true
  | _ => false

/-- A dense 2-D tensor: dimensions plus an entry function.  Only the
entries with indices below the dimensions are meaningful. -/
structure Mat where
  rows : Nat
  cols : Nat
  entry : Nat → Nat → EV

/-- A dense 1-D tensor. -/
structure Vec where
  len : Nat
  entry : Nat → EV

/-- The only failure the modelled code can produce: a torch shape
mismatch (the ShapeError of the specification). -/
inductive TensorError where
  | shape
deriving DecidableEq

instance {ε α : Type} [DecidableEq ε] [DecidableEq α] : DecidableEq (Except ε α)
  | .ok a, .ok b =>
    if h : a = b then .isTrue (by rw [h]) else .isFalse (by simp [h])
  | .ok _, .error _ => .isFalse (by simp)
  | .error _, .ok _ => .isFalse (by simp)
  | .error a, .error b =>
    if h : a = b then .isTrue (by rw [h]) else .isFalse (by simp [h])

/-- Elementwise map over a matrix. -/
def Mat.map1 (f : EV → EV) (m : Mat) : Mat :=
  ⟨m.rows, m.cols, fun i j => f (m.entry i j)⟩

/-- torch.pow (m, -0.5), elementwise. -/
def Mat.powNegHalf (m : Mat) : Mat := m.map1 EV.powNegHalf

/-- torch relu, elementwise. -/
def Mat.reluM (m : Mat) : Mat := m.map1 EV.relu

/-- torch.diag on a 2-D tensor: the main diagonal, of length
min rows cols. -/
def Mat.diag (m : Mat) : Vec := ⟨min m.rows m.cols, fun i => m.entry i i⟩

/-- torch.diag_embed on a 1-D tensor: the square matrix with the vector
on the diagonal and zeros elsewhere. -/
def diag_embed (v : Vec) : Mat :=
  ⟨v.len, v.len, fun i j => if i = j then v.entry i else .fin 0⟩

/-- torch.eye n. -/
def Mat.eye (n : Nat) : Mat :=
  ⟨n, n, fun i j => if i = j then .fin 1 else .fin 0⟩

/-- torch.ones (n, n). -/
def Mat.onesM (n : Nat) : Mat := ⟨n, n, fun _ _ => .fin 1⟩

/-- Left fold summation of f 0, ..., f (n-1), starting from zero, in
index order, as a tensor contraction accumulates. -/
def sumTo (f : Nat → EV) : Nat → EV
  | 0 => .fin 0
  | n + 1 => (sumTo f n).add (f n)

/-- Matrix product, without the shape check (the inner dimension is
taken from the left factor). -/
def Mat.mulT (a b : Mat) : Mat :=
  ⟨a.rows, b.cols, fun i j => sumTo (fun k => (a.entry i k).mul (b.entry k j)) a.cols⟩

/-- torch.matmul on 2-D tensors: the inner dimensions must match
exactly, otherwise a shape error is raised. -/
def Mat.mm (a b : Mat) : Except TensorError Mat :=
  if a.cols = b.rows then .ok (a.mulT b) else .error .shape

/-- Two sizes are broadcast-compatible when they are equal or one of
them is 1 (the torch broadcasting rule, per dimension). -/
def BCompat (m n : Nat) : Prop := m = n ∨ m = 1 ∨ n = 1

instance (m n : Nat) : Decidable (BCompat m n) :=
  inferInstanceAs (Decidable (m = n ∨ m = 1 ∨ n = 1))

/-- The broadcast size of two compatible sizes: a size of 1 stretches
to the other size. -/
def bdim (d1 d2 : Nat) : Nat := if d1 = 1 then d2 else d1

/-- Index into a possibly broadcast dimension: a dimension of size 1 is
always read at index 0. -/
def bidx (d i : Nat) : Nat := if d = 1 then 0 else i

/-- Elementwise addition with torch broadcasting, without the
compatibility check. -/
def Mat.baddT (a b : Mat) : Mat :=
  ⟨bdim a.rows b.rows, bdim a.cols b.cols, fun i j =>
    (a.entry (bidx a.rows i) (bidx a.cols j)).add
      (b.entry (bidx b.rows i) (bidx b.cols j))⟩

/-- torch addition of 2-D tensors: broadcasts dimensions of size 1 and
raises a shape error on incompatible sizes. -/
def Mat.badd (a b : Mat) : Except TensorError Mat :=
  if BCompat a.rows b.rows ∧ BCompat a.cols b.cols then .ok (a.baddT b)
  else .error .shape

/-- The state of a constructed GCNLayer: the fields the constructor
stores on self, in order. -/
structure GCNLayer where
  input_dim : Nat
  output_dim : Nat
  A : Mat
  A_hat : Mat
  ones : Mat
  D : Mat
  D_neg_sqrt : Mat
  W : Mat

/-- The GCNLayer constructor.  Follows the notebook line by line:
A_hat = A + eye (A.size 0); D = matmul (A, ones (input_dim, input_dim));
D = diag (D); D = diag_embed (D);
D_neg_sqrt = diag_embed (diag (pow (D, -0.5)));
W = rand (input_dim, output_dim).  The random draw for W is modelled by
the explicit entry oracle w (torch.rand yields finite rationals in
[0, 1); where a claim depends on that range it is a hypothesis).
Shape failures of the torch calls propagate as errors. -/
def GCNLayer.init (input_dim output_dim : Nat) (A : Mat)
    (w : Nat → Nat → ℚ) : Except TensorError GCNLayer :=
  (A.badd (Mat.eye A.rows)).bind fun A_hat =>
  (A.mm (Mat.onesM input_dim)).bind fun D0 =>
  let D := diag_embed D0.diag
  let D_neg_sqrt := diag_embed (Mat.diag D.powNegHalf)
  .ok ⟨input_dim, output_dim, A, A_hat, Mat.onesM input_dim, D, D_neg_sqrt,
       ⟨input_dim, output_dim, fun i j => .fin (w i j)⟩⟩

/-- The layer record the constructor produces on its success path, with
the shape checks stripped (total broadcasting and products). -/
def mkGCN (input_dim output_dim : Nat) (A : Mat)
    (w : Nat → Nat → ℚ) : GCNLayer :=
  ⟨input_dim, output_dim, A, A.baddT (Mat.eye A.rows), Mat.onesM input_dim,
   diag_embed (A.mulT (Mat.onesM input_dim)).diag,
   diag_embed (Mat.diag (diag_embed (A.mulT (Mat.onesM input_dim)).diag).powNegHalf),
   ⟨input_dim, output_dim, fun i j => .fin (w i j)⟩⟩

/-- GCNLayer.forward.  Follows the notebook:
support_1 = matmul (D_neg_sqrt, matmul (A_hat, D_neg_sqrt));
support_2 = matmul (support_1, matmul (X, W)); H = relu (support_2). -/
def GCNLayer.forward (l : GCNLayer) (X : Mat) : Except TensorError Mat :=
  (l.A_hat.mm l.D_neg_sqrt).bind fun t1 =>
  (l.D_neg_sqrt.mm t1).bind fun support_1 =>
  (X.mm l.W).bind fun t2 =>
  (support_1.mm t2).bind fun support_2 =>
  .ok support_2.reluM

/-- State passing form of forward: the method body contains no
assignment to a field of self, so the post-state returned with the
result is the unchanged layer. -/
def GCNLayer.forwardS (l : GCNLayer) (X : Mat) :
    Except TensorError (Mat × GCNLayer) :=
  (l.A_hat.mm l.D_neg_sqrt).bind fun t1 =>
  (l.D_neg_sqrt.mm t1).bind fun support_1 =>
  (X.mm l.W).bind fun t2 =>
  (support_1.mm t2).bind fun support_2 =>
  .ok (support_2.reluM, l)

/-- Row sum of row i of a matrix, taken over its column count: the
plain degree of node i as the specification states it. -/
def rowSumN (A : Mat) (i : Nat) : EV := sumTo (fun k => A.entry i k) A.cols

/-- Self-looped adjacency as the specification states it: A + I, with
the identity of the size of A. -/
def specAhat (A : Mat) : Mat :=
  ⟨A.rows, A.rows, fun i j => (A.entry i j).add (if i = j then .fin 1 else .fin 0)⟩

/-- Normalizer as the specification states it: the diagonal matrix of
the inverse square roots of the row sums of A, zeros elsewhere. -/
def specDnegSqrt (A : Mat) : Mat :=
  ⟨A.rows, A.rows, fun i j =>
    if i = j then (rowSumN A i).powNegHalf else .fin 0⟩

/-- Normalized adjacency as the specification states it:
D_neg_sqrt (A + I) D_neg_sqrt, with the same association the forward
code uses. -/
def specS (A : Mat) : Mat :=
  (specDnegSqrt A).mulT ((specAhat A).mulT (specDnegSqrt A))

/-- Scalar multiple of a matrix (IEEE multiplication by a rational). -/
def Mat.smul (q : ℚ) (m : Mat) : Mat :=
  ⟨m.rows, m.cols, fun i j => (EV.fin q).mul (m.entry i j)⟩

/-- Extensional equality of matrices: same dimensions and the same
entries inside the dimensions. -/
def Mat.Eq (a b : Mat) : Prop :=
  a.rows = b.rows ∧ a.cols = b.cols ∧
    ∀ i < a.rows, ∀ j < a.cols, a.entry i j = b.entry i j

instance (a b : Mat) : Decidable (a.Eq b) :=
  inferInstanceAs (Decidable (a.rows = b.rows ∧ a.cols = b.cols ∧
    ∀ i < a.rows, ∀ j < a.cols, a.entry i j = b.entry i j))

/-- All entries inside the dimensions are finite. -/
def Mat.FinOn (m : Mat) : Prop :=
  ∀ i < m.rows, ∀ j < m.cols, (m.entry i j).isFinite = true

instance (m : Mat) : Decidable m.FinOn :=
  inferInstanceAs (Decidable (∀ i < m.rows, ∀ j < m.cols, (m.entry i j).isFinite = true))

/-- A fixed draw for the random weight oracle: every entry one half,
inside the [0, 1) range of torch.rand. -/
def wHalf : Nat → Nat → ℚ := fun _ _ => 1/2

/-- Concrete 2-node adjacency: a single undirected edge, both degrees
one. -/
def adjTwo : Mat := ⟨2, 2, fun i j => if i = j then .fin 0 else .fin 1⟩

/-- Concrete 2 x 2 feature matrix with entries 1, 2, 3, 4. -/
def featTwo : Mat := ⟨2, 2, fun i j => .fin ((2 * i + j : Nat) + 1)⟩

/-- Concrete non-square 2 x 1 adjacency of ones (broadcasting case). -/
def adjCol : Mat := ⟨2, 1, fun _ _ => .fin 1⟩

/-- Concrete 1-node adjacency with no edge: an isolated node. -/
def adjZero1 : Mat := ⟨1, 1, fun _ _ => .fin 0⟩

/-- Concrete 1 x 1 zero feature matrix. -/
def featZero1 : Mat := ⟨1, 1, fun _ _ => .fin 0⟩

/-- Concrete 1 x 1 feature matrix holding minus one. -/
def featNeg1 : Mat := ⟨1, 1, fun _ _ => .fin (-1)⟩

/-- Concrete 2-node adjacency whose node 0 is isolated and whose node 1
has a self loop. -/
def adjIso : Mat := ⟨2, 2, fun i j => if i = 1 ∧ j = 1 then .fin 1 else .fin 0⟩

/-- Concrete 1 x 2 feature matrix: the wrong shape for a 2-node layer. -/
def featBad : Mat := ⟨1, 2, fun _ _ => .fin 1⟩

/-- Adding finite zero on the right is the identity. -/
theorem EV.add_zero_ev (x : EV) : x.add (.fin 0) = x := by
  cases x <;> simp [EV.add]

/-- Adding finite zero on the left is the identity. -/
theorem EV.zero_add_ev (x : EV) : (EV.fin 0).add x = x := by
  cases x <;> simp [EV.add]

/-- Multiplying by finite one on the right is the identity. -/
theorem EV.mul_one_ev (x : EV) : x.mul (.fin 1) = x := by
  cases x <;> simp [EV.mul]

/-- Finite zero times a finite value is finite zero. -/
theorem EV.zero_mul_fin (b : ℚ) : (EV.fin 0).mul (.fin b) = .fin 0 := by
  simp [EV.mul]

/-- A finite value times finite zero is finite zero. -/
theorem EV.fin_mul_zero (a : ℚ) : (EV.fin a).mul (.fin 0) = .fin 0 := by
  simp [EV.mul]

/-- A sum is finite exactly when both summands are. -/
theorem EV.isFinite_add (x y : EV) :
    (x.add y).isFinite = (x.isFinite && y.isFinite) := by
  cases x <;> cases y <;> simp [EV.add, EV.isFinite]

/-- The product of finite values is finite. -/
theorem EV.isFinite_mul (x y : EV) (hx : x.isFinite = true)
    (hy : y.isFinite = true) : (x.mul y).isFinite = true := by
  cases x <;> cases y <;> simp_all [EV.mul, EV.isFinite]

/-- The sign-dispatch of an infinity times a finite value is never
finite when both branches are non-finite. -/
theorem EV.isFinite_sign_ite (b : ℚ) (u v : EV) (hu : u.isFinite = false)
    (hv : v.isFinite = false) :
    (if 0 < b then u else if b < 0 then v else EV.nan).isFinite = false := by
  by_cases h1 : 0 < b
  · simp [h1, hu]
  · by_cases h2 : b < 0
    · simp [h1, h2, hv]
    · simp [h1, h2, EV.isFinite]

/-- A product with a non-finite left factor is non-finite. -/
theorem EV.isFinite_mul_left (x y : EV) (hx : x.isFinite = false) :
    (x.mul y).isFinite = false := by
  cases x with
  | fin q => simp [EV.isFinite] at hx
  | pinf =>
    cases y with
    | fin b => exact EV.isFinite_sign_ite b .pinf .ninf rfl rfl
    | pinf => rfl
    | ninf => rfl
    | nan => rfl
  | ninf =>
    cases y with
    | fin b => exact EV.isFinite_sign_ite b .ninf .pinf rfl rfl
    | pinf => rfl
    | ninf => rfl
    | nan => rfl
  | nan => cases y <;> rfl

/-- relu of a non-finite value is non-finite or exactly zero (negative
infinity clamps to zero). -/
theorem EV.relu_not_finite (x : EV) (hx : x.isFinite = false) :
    x.relu.isFinite = false ∨ x.relu = .fin 0 := by
  cases x <;> simp_all [EV.relu, EV.isFinite]

/-- pow (x, -0.5) at finite zero is positive infinity. -/
theorem EV.powNegHalf_zero : (EV.fin 0).powNegHalf = .pinf := by
  simp [EV.powNegHalf]

/-- pow (x, -0.5) at a positive finite value is its finite inverse
square root. -/
theorem EV.powNegHalf_pos (q : ℚ) (h : 0 < q) :
    (EV.fin q).powNegHalf = .fin (ratInvSqrt q) := by
  simp [EV.powNegHalf, not_lt.mpr h.le, h.ne.symm]

/-- Sums respect pointwise equality of the summands below the bound. -/
theorem sumTo_congr (f g : Nat → EV) (n : Nat) (h : ∀ k < n, f k = g k) :
    sumTo f n = sumTo g n := by
  induction n with
  | zero => rfl
  | succ m ih =>
    simp only [sumTo]
    rw [ih (fun k hk => h k (Nat.lt_succ_of_lt hk)), h m (Nat.lt_succ_self m)]

/-- A sum of finite zeros is finite zero. -/
theorem sumTo_all_zero (f : Nat → EV) (n : Nat)
    (h : ∀ k < n, f k = .fin 0) : sumTo f n = .fin 0 := by
  induction n with
  | zero => rfl
  | succ m ih =>
    simp only [sumTo]
    rw [ih (fun k hk => h k (Nat.lt_succ_of_lt hk)), h m (Nat.lt_succ_self m),
      EV.add_zero_ev]

/-- A sum whose terms vanish except at one index equals that term. -/
theorem sumTo_single (f : Nat → EV) (n m : Nat) (hm : m < n)
    (h : ∀ k < n, k ≠ m → f k = .fin 0) : sumTo f n = f m := by
  induction n with
  | zero => exact absurd hm (Nat.not_lt_zero m)
  | succ p ih =>
    simp only [sumTo]
    rcases Nat.lt_succ_iff_lt_or_eq.mp hm with hlt | heq
    · rw [ih hlt (fun k hk hne => h k (Nat.lt_succ_of_lt hk) hne),
        h p (Nat.lt_succ_self p) (by omega), EV.add_zero_ev]
    · subst heq
      rw [sumTo_all_zero _ _ (fun k hk => h k (Nat.lt_succ_of_lt hk) (by omega)),
        EV.zero_add_ev]

/-- A sum is finite exactly when every term below the bound is. -/
theorem isFinite_sumTo (f : Nat → EV) (n : Nat) :
    (sumTo f n).isFinite = true ↔ ∀ k < n, (f k).isFinite = true := by
  induction n with
  | zero => simp [sumTo, EV.isFinite]
  | succ m ih =>
    simp only [sumTo, EV.isFinite_add, Bool.and_eq_true, ih]
    constructor
    · rintro ⟨h1, h2⟩ k hk
      rcases Nat.lt_succ_iff_lt_or_eq.mp hk with hlt | heq
      · exact h1 k hlt
      · subst heq; exact h2
    · intro h
      exact ⟨fun k hk => h k (Nat.lt_succ_of_lt hk), h m (Nat.lt_succ_self m)⟩

/-- In-bounds broadcast indices are untouched. -/
theorem bidx_of_lt (d i : Nat) (h : i < d) : bidx d i = i := by
  unfold bidx
  split
  · omega
  · rfl

/-- Broadcasting two equal sizes keeps the size. -/
theorem bdim_self (n : Nat) : bdim n n = n := by
  unfold bdim
  split <;> omega

/-- Matrix product respects extensional equality when the inner
dimensions line up. -/
theorem Mat.Eq.mulT_congr {a a' b b' : Mat} (ha : a.Eq a') (hb : b.Eq b')
    (hab : a.cols = b.rows) : (a.mulT b).Eq (a'.mulT b') := by
  obtain ⟨har, hac, hae⟩ := ha
  obtain ⟨hbr, hbc, hbe⟩ := hb
  refine ⟨har, hbc, fun i hi j hj => ?_⟩
  simp only [Mat.mulT] at hi hj ⊢
  rw [← hac]
  refine sumTo_congr _ _ _ (fun k hk => ?_)
  rw [hae i hi k hk, hbe k (by omega) j hj]

/-- Elementwise relu respects extensional equality. -/
theorem Mat.Eq.reluM_congr {a b : Mat} (h : a.Eq b) : a.reluM.Eq b.reluM := by
  obtain ⟨hr, hc, he⟩ := h
  exact ⟨hr, hc, fun i hi j hj => by
    simp only [Mat.reluM, Mat.map1] at hi hj ⊢
    rw [he i hi j hj]⟩

/-- A product of matrices with finite entries has finite entries, when
the inner dimensions line up. -/
theorem Mat.FinOn.mulT {a b : Mat} (ha : a.FinOn) (hb : b.FinOn)
    (hab : a.cols = b.rows) : (a.mulT b).FinOn := by
  intro i hi j hj
  simp only [Mat.mulT] at hi hj ⊢
  rw [isFinite_sumTo]
  intro k hk
  exact EV.isFinite_mul _ _ (ha i hi k hk) (hb k (by omega) j hj)

/-- Entrywise relu of a finite matrix is finite, with all entries
nonnegative rationals. -/
theorem Mat.FinOn.reluM_nonneg {m : Mat} (hm : m.FinOn) :
    ∀ i < m.rows, ∀ j < m.cols,
      ∃ q : ℚ, (m.reluM).entry i j = .fin q ∧ 0 ≤ q := by
  intro i hi j hj
  have h := hm i hi j hj
  cases hme : m.entry i j with
  | fin q =>
    exact ⟨max q 0, by simp [Mat.reluM, Mat.map1, hme, EV.relu], le_max_right q 0⟩
  | pinf => rw [hme] at h; simp [EV.isFinite] at h
  | ninf => rw [hme] at h; simp [EV.isFinite] at h
  | nan => rw [hme] at h; simp [EV.isFinite] at h

/-- A finite row sum forces every entry of the row to be finite. -/
theorem rowSumN_finite_entries (A : Mat) (i : Nat) (q : ℚ)
    (h : rowSumN A i = .fin q) : ∀ k < A.cols, (A.entry i k).isFinite = true := by
  have : (rowSumN A i).isFinite = true := by rw [h]; rfl
  rw [rowSumN, isFinite_sumTo] at this
  exact this

/-- When the shape checks pass, the constructor succeeds and returns
exactly the record mkGCN describes. -/
theorem init_ok (N o : Nat) (A : Mat) (w : Nat → Nat → ℚ)
    (h1 : A.rows = N) (h2 : A.cols = N) :
    GCNLayer.init N o A w = .ok (mkGCN N o A w) := by
  have hb : BCompat A.rows (Mat.eye A.rows).rows ∧
      BCompat A.cols (Mat.eye A.rows).cols := by
    constructor <;> exact Or.inl (by simp [Mat.eye, h1, h2])
  have hm : A.cols = (Mat.onesM N).rows := by simp [Mat.onesM, h2]
  unfold GCNLayer.init Mat.badd Mat.mm
  rw [if_pos hb]
  simp only [Except.bind]
  rw [if_pos hm]
  rfl

/-- The self-looped adjacency stored by the constructor, inside the
dimensions: A plus the identity. -/
theorem mkGCN_Ahat_entry (N o : Nat) (A : Mat) (w : Nat → Nat → ℚ)
    (h1 : A.rows = N) (h2 : A.cols = N) (i j : Nat) (hi : i < N) (hj : j < N) :
    (mkGCN N o A w).A_hat.entry i j
      = (A.entry i j).add (if i = j then .fin 1 else .fin 0) := by
  simp only [mkGCN, Mat.baddT, Mat.eye, h1, h2,
    bidx_of_lt N i hi, bidx_of_lt N j hj]

/-- Dimensions of the stored self-looped adjacency. -/
theorem mkGCN_Ahat_dims (N o : Nat) (A : Mat) (w : Nat → Nat → ℚ)
    (h1 : A.rows = N) (h2 : A.cols = N) :
    (mkGCN N o A w).A_hat.rows = N ∧ (mkGCN N o A w).A_hat.cols = N := by
  simp [mkGCN, Mat.baddT, Mat.eye, h1, h2, bdim_self]

/-- The degree matrix stored by the constructor: on the diagonal the
plain row sums of A, zeros elsewhere (at every index pair). -/
theorem mkGCN_D_entry (N o : Nat) (A : Mat) (w : Nat → Nat → ℚ)
    (i j : Nat) :
    (mkGCN N o A w).D.entry i j
      = if i = j then rowSumN A i else .fin 0 := by
  have hrow : (A.mulT (Mat.onesM N)).entry i i = rowSumN A i := by
    simp only [Mat.mulT, Mat.onesM, rowSumN]
    exact sumTo_congr _ _ _ (fun k _ => EV.mul_one_ev _)
  simp only [mkGCN, diag_embed, Mat.diag, hrow]

/-- Dimensions of the stored degree matrix. -/
theorem mkGCN_D_dims (N o : Nat) (A : Mat) (w : Nat → Nat → ℚ)
    (h1 : A.rows = N) :
    (mkGCN N o A w).D.rows = N ∧ (mkGCN N o A w).D.cols = N := by
  simp [mkGCN, diag_embed, Mat.diag, Mat.mulT, Mat.onesM, h1]

/-- The normalizer stored by the constructor: on the diagonal the
inverse square roots of the plain row sums of A, zeros elsewhere (at
every index pair). -/
theorem mkGCN_Dns_entry (N o : Nat) (A : Mat) (w : Nat → Nat → ℚ)
    (i j : Nat) :
    (mkGCN N o A w).D_neg_sqrt.entry i j
      = if i = j then (rowSumN A i).powNegHalf else .fin 0 := by
  have hD := mkGCN_D_entry N o A w
  show (diag_embed (Mat.diag (mkGCN N o A w).D.powNegHalf)).entry i j = _
  simp only [diag_embed, Mat.diag, Mat.powNegHalf, Mat.map1]
  rw [hD i i]
  simp

/-- Dimensions of the stored normalizer. -/
theorem mkGCN_Dns_dims (N o : Nat) (A : Mat) (w : Nat → Nat → ℚ)
    (h1 : A.rows = N) :
    (mkGCN N o A w).D_neg_sqrt.rows = N ∧ (mkGCN N o A w).D_neg_sqrt.cols = N := by
  simp [mkGCN, diag_embed, Mat.diag, Mat.powNegHalf, Mat.map1, Mat.mulT,
    Mat.onesM, h1]

/-- Dimensions and entries of the stored weight matrix. -/
theorem mkGCN_W_def (N o : Nat) (A : Mat) (w : Nat → Nat → ℚ) :
    (mkGCN N o A w).W = ⟨N, o, fun i j => .fin (w i j)⟩ := rfl

/-- matmul succeeds on matching inner dimensions. -/
theorem Mat.mm_ok (a b : Mat) (h : a.cols = b.rows) :
    a.mm b = .ok (a.mulT b) := by
  unfold Mat.mm
  rw [if_pos h]

/-- matmul fails on mismatched inner dimensions. -/
theorem Mat.mm_err (a b : Mat) (h : a.cols ≠ b.rows) :
    a.mm b = .error .shape := by
  unfold Mat.mm
  rw [if_neg h]

/-- bind on a success passes the value on. -/
theorem exc_bind_ok {α β : Type} (x : α) (f : α → Except TensorError β) :
    Except.bind (.ok x) f = f x := rfl

/-- bind on an error propagates the error. -/
theorem exc_bind_err {α β : Type} (e : TensorError)
    (f : α → Except TensorError β) : Except.bind (.error e) f = .error e := rfl

/-- Extensional equality is reflexive. -/
theorem Mat.Eq.refl_mat (a : Mat) : a.Eq a := ⟨rfl, rfl, fun _ _ _ _ => rfl⟩

/-- On a square layer and a correctly shaped input, forward succeeds
and returns relu of the product of the stored normalized adjacency with
the projected features. -/
theorem forward_mk_ok (N o : Nat) (A : Mat) (w : Nat → Nat → ℚ)
    (h1 : A.rows = N) (h2 : A.cols = N) (X : Mat)
    (hXr : X.rows = N) (hXc : X.cols = N) :
    (mkGCN N o A w).forward X =
      .ok ((((mkGCN N o A w).D_neg_sqrt.mulT
        ((mkGCN N o A w).A_hat.mulT (mkGCN N o A w).D_neg_sqrt)).mulT
          (X.mulT (mkGCN N o A w).W)).reluM) := by
  obtain ⟨hAr, hAc⟩ := mkGCN_Ahat_dims N o A w h1 h2
  obtain ⟨hDr, hDc⟩ := mkGCN_Dns_dims N o A w h1
  unfold GCNLayer.forward
  rw [Mat.mm_ok _ _ (hAc.trans hDr.symm), exc_bind_ok,
    Mat.mm_ok _ _ (by simp [Mat.mulT, hDc, hAr]), exc_bind_ok,
    Mat.mm_ok _ _ (by rw [hXc]; rfl), exc_bind_ok,
    Mat.mm_ok _ _ (by simp [Mat.mulT, hDc, hXr]), exc_bind_ok]

/-- On a square layer, forward fails with the shape error whenever the
input dimensions are off. -/
theorem forward_mk_err (N o : Nat) (A : Mat) (w : Nat → Nat → ℚ)
    (h1 : A.rows = N) (h2 : A.cols = N) (X : Mat)
    (hX : X.rows ≠ N ∨ X.cols ≠ N) :
    (mkGCN N o A w).forward X = .error .shape := by
  obtain ⟨hAr, hAc⟩ := mkGCN_Ahat_dims N o A w h1 h2
  obtain ⟨hDr, hDc⟩ := mkGCN_Dns_dims N o A w h1
  unfold GCNLayer.forward
  rw [Mat.mm_ok _ _ (hAc.trans hDr.symm), exc_bind_ok,
    Mat.mm_ok _ _ (by simp [Mat.mulT, hDc, hAr]), exc_bind_ok]
  by_cases hc : X.cols = N
  · have hr : X.rows ≠ N := by tauto
    rw [Mat.mm_ok _ _ (by rw [hc]; rfl), exc_bind_ok,
      Mat.mm_err _ _ (by simp only [Mat.mulT, hDc]; exact fun h => hr h.symm),
      exc_bind_err]
  · rw [Mat.mm_err _ _ (by rw [show (mkGCN N o A w).W.rows = N from rfl]; exact hc),
      exc_bind_err]

/-- The stored normalizer agrees extensionally with the one the
specification describes. -/
theorem mkGCN_Dns_Eq_spec (N o : Nat) (A : Mat) (w : Nat → Nat → ℚ)
    (h1 : A.rows = N) :
    (mkGCN N o A w).D_neg_sqrt.Eq (specDnegSqrt A) := by
  obtain ⟨hDr, hDc⟩ := mkGCN_Dns_dims N o A w h1
  refine ⟨by rw [hDr, specDnegSqrt, h1], by rw [hDc, specDnegSqrt, h1],
    fun i _ j _ => ?_⟩
  rw [mkGCN_Dns_entry]
  rfl

/-- The stored self-looped adjacency agrees extensionally with A + I. -/
theorem mkGCN_Ahat_Eq_spec (N o : Nat) (A : Mat) (w : Nat → Nat → ℚ)
    (h1 : A.rows = N) (h2 : A.cols = N) :
    (mkGCN N o A w).A_hat.Eq (specAhat A) := by
  obtain ⟨hAr, hAc⟩ := mkGCN_Ahat_dims N o A w h1 h2
  refine ⟨by rw [hAr, specAhat, h1], by rw [hAc, specAhat, h1],
    fun i hi j hj => ?_⟩
  rw [hAr] at hi
  rw [hAc] at hj
  rw [mkGCN_Ahat_entry N o A w h1 h2 i j hi hj]
  rfl

/-- The constructor in closed form: it succeeds, returning the mkGCN
record, exactly when the identity addition broadcasts and the inner
dimension of the degree product matches, and fails with the shape error
otherwise. -/
theorem init_cases (d o : Nat) (A : Mat) (w : Nat → Nat → ℚ) :
    GCNLayer.init d o A w =
      if BCompat A.cols A.rows ∧ A.cols = d then .ok (mkGCN d o A w)
      else .error .shape := by
  unfold GCNLayer.init Mat.badd Mat.mm
  simp only [Mat.eye, Mat.onesM]
  by_cases h1 : BCompat A.cols A.rows
  · rw [if_pos ⟨Or.inl rfl, h1⟩, exc_bind_ok]
    by_cases h2 : A.cols = d
    · rw [if_pos h2, exc_bind_ok, if_pos ⟨h1, h2⟩]
      rfl
    · rw [if_neg h2, exc_bind_err, if_neg (by tauto)]
  · rw [if_neg (by tauto), exc_bind_err, if_neg (by tauto)]

/-- C1: for a square N x N adjacency with input_dim = N and an
N x input_dim feature matrix, forward returns
relu (D_neg_sqrt (A + I) D_neg_sqrt (X W)), where D_neg_sqrt is the
diagonal matrix of inverse square roots of the row sums of A and W is
the stored weight matrix; forward computes S, then P = X W, then
relu (S P). -/
theorem C1_forward_formula (N o : Nat) (A : Mat) (w : Nat → Nat → ℚ)
    (l : GCNLayer) (h1 : A.rows = N) (h2 : A.cols = N)
    (hinit : GCNLayer.init N o A w = .ok l)
    (X : Mat) (hXr : X.rows = N) (hXc : X.cols = N) :
    ∃ H, l.forward X = .ok H ∧ H.Eq (((specS A).mulT (X.mulT l.W)).reluM) := by
  have hl : mkGCN N o A w = l :=
    Except.ok.inj ((init_ok N o A w h1 h2).symm.trans hinit)
  subst hl
  refine ⟨_, forward_mk_ok N o A w h1 h2 X hXr hXc, ?_⟩
  obtain ⟨hAr, hAc⟩ := mkGCN_Ahat_dims N o A w h1 h2
  obtain ⟨hDr, hDc⟩ := mkGCN_Dns_dims N o A w h1
  apply Mat.Eq.reluM_congr
  apply Mat.Eq.mulT_congr
  · exact Mat.Eq.mulT_congr (mkGCN_Dns_Eq_spec N o A w h1)
      (Mat.Eq.mulT_congr (mkGCN_Ahat_Eq_spec N o A w h1 h2)
        (mkGCN_Dns_Eq_spec N o A w h1) (hAc.trans hDr.symm))
      (by simp [Mat.mulT, hDc, hAr])
  · exact Mat.Eq.refl_mat _
  · simp [Mat.mulT, hDc, hXr]

/-- C2: at construction the degree vector comes from A, not from
A + I: each diagonal entry of the stored D is the plain row sum of A,
and the diagonal of the matmul of A with the all-ones matrix equals
that same row sum. -/
theorem C2_degree_from_A (N o : Nat) (A : Mat) (w : Nat → Nat → ℚ)
    (l : GCNLayer) (h1 : A.rows = N) (h2 : A.cols = N)
    (hinit : GCNLayer.init N o A w = .ok l) :
    ∀ i < N, l.D.entry i i = rowSumN A i ∧
      (A.mulT (Mat.onesM N)).diag.entry i = rowSumN A i := by
  have hl : mkGCN N o A w = l :=
    Except.ok.inj ((init_ok N o A w h1 h2).symm.trans hinit)
  subst hl
  intro i _
  constructor
  · rw [mkGCN_D_entry]
    simp
  · simp only [Mat.diag, Mat.mulT, Mat.onesM, rowSumN]
    exact sumTo_congr _ _ _ (fun k _ => EV.mul_one_ev _)

/-- C3: on a layer built from a square N x N adjacency with
input_dim = N, forward succeeds exactly on feature matrices with N rows
and input_dim columns, and fails with the shape error whenever the row
count differs from N or the column count differs from input_dim. -/
theorem C3_forward_shape (N o : Nat) (A : Mat) (w : Nat → Nat → ℚ)
    (l : GCNLayer) (h1 : A.rows = N) (h2 : A.cols = N)
    (hinit : GCNLayer.init N o A w = .ok l) (X : Mat) :
    (X.rows = N ∧ X.cols = N → ∃ H, l.forward X = .ok H) ∧
    (X.rows ≠ N ∨ X.cols ≠ N → l.forward X = .error .shape) := by
  have hl : mkGCN N o A w = l :=
    Except.ok.inj ((init_ok N o A w h1 h2).symm.trans hinit)
  subst hl
  constructor
  · rintro ⟨hXr, hXc⟩
    exact ⟨_, forward_mk_ok N o A w h1 h2 X hXr hXc⟩
  · intro hX
    exact forward_mk_err N o A w h1 h2 X hX

/-- C4 counterexample: the claim says construction must fail whenever A
is not square or input_dim differs from the row count of A; yet on the
non-square 2 x 1 adjacency with input_dim 1 the identity addition
broadcasts and construction succeeds. -/
theorem C4_counterexample :
    (GCNLayer.init 1 1 adjCol wHalf).isOk = true ∧
      adjCol.rows ≠ adjCol.cols ∧ (1 : Nat) ≠ adjCol.rows := by
  refine ⟨by decide, by decide, by decide⟩

/-- C4 amended: construction succeeds exactly when the column count of
A equals input_dim and is broadcast-compatible with the row count
(equal, or one of the two is 1); otherwise it fails with the shape
error.  In particular a square A with input_dim equal to its row count
constructs, but a 2 x 1 or 1 x 2 adjacency can also construct through
broadcasting, so non-squareness alone does not force a failure. -/
theorem C4_construction_iff (d o : Nat) (A : Mat) (w : Nat → Nat → ℚ) :
    ((∃ l, GCNLayer.init d o A w = .ok l)
        ↔ ((A.cols = A.rows ∨ A.cols = 1 ∨ A.rows = 1) ∧ A.cols = d))
    ∧ (GCNLayer.init d o A w = .error .shape
        ↔ ¬ ((A.cols = A.rows ∨ A.cols = 1 ∨ A.rows = 1) ∧ A.cols = d)) := by
  rw [init_cases]
  by_cases h : BCompat A.cols A.rows ∧ A.cols = d
  · rw [if_pos h]
    constructor
    · simp only [BCompat] at h
      exact ⟨fun _ => h, fun _ => ⟨_, rfl⟩⟩
    · constructor
      · intro hcon
        exact absurd hcon (by simp)
      · intro hcon
        exact absurd (by simpa [BCompat] using h) hcon
  · rw [if_neg h]
    constructor
    · constructor
      · rintro ⟨l, hl⟩
        exact absurd hl (by simp)
      · intro hcon
        exact absurd (by simpa [BCompat] using hcon) h
    · exact ⟨fun _ => by simpa [BCompat] using h, fun _ => rfl⟩

/-- Multiplying by finite one on the left is the identity. -/
theorem EV.one_mul_ev (x : EV) : (EV.fin 1).mul x = x := by
  cases x <;> simp [EV.mul]

/-- Finite zero times any finite value is finite zero. -/
theorem EV.zero_mul_of_finite (y : EV) (hy : y.isFinite = true) :
    (EV.fin 0).mul y = .fin 0 := by
  cases y <;> simp_all [EV.mul, EV.isFinite]

/-- With entrywise finite square A with positive row sums and finite
features of the right shape, forward succeeds and every output entry is
a nonnegative rational. -/
theorem forward_fin_all (N o : Nat) (A : Mat) (w : Nat → Nat → ℚ)
    (h1 : A.rows = N) (h2 : A.cols = N)
    (hpos : ∀ i < N, ∃ q : ℚ, rowSumN A i = .fin q ∧ 0 < q)
    (X : Mat) (hXr : X.rows = N) (hXc : X.cols = N)
    (hXfin : ∀ i < N, ∀ j < N, (X.entry i j).isFinite = true) :
    ∃ H, (mkGCN N o A w).forward X = .ok H ∧ H.rows = N ∧ H.cols = o ∧
      ∀ i < N, ∀ j < o, ∃ q : ℚ, H.entry i j = .fin q ∧ 0 ≤ q := by
  obtain ⟨hAr, hAc⟩ := mkGCN_Ahat_dims N o A w h1 h2
  obtain ⟨hDr, hDc⟩ := mkGCN_Dns_dims N o A w h1
  refine ⟨_, forward_mk_ok N o A w h1 h2 X hXr hXc, ?_, ?_, ?_⟩
  · simp [Mat.reluM, Mat.map1, Mat.mulT, hDr]
  · rfl
  · have hAfin : A.FinOn := by
      intro i hi k hk
      obtain ⟨q, hq, _⟩ := hpos i (h1 ▸ hi)
      exact rowSumN_finite_entries A i q hq k hk
    have hDnsfin : (mkGCN N o A w).D_neg_sqrt.FinOn := by
      intro i hi j hj
      rw [mkGCN_Dns_entry]
      split
      · obtain ⟨q, hq, hqpos⟩ := hpos i (hDr ▸ hi)
        rw [hq, EV.powNegHalf_pos q hqpos]
        rfl
      · rfl
    have hAhatfin : (mkGCN N o A w).A_hat.FinOn := by
      intro i hi j hj
      rw [hAr] at hi
      rw [hAc] at hj
      rw [mkGCN_Ahat_entry N o A w h1 h2 i j hi hj, EV.isFinite_add,
        hAfin i (h1 ▸ hi) j (h2 ▸ hj)]
      split <;> rfl
    have hWfin : (mkGCN N o A w).W.FinOn := fun _ _ _ _ => rfl
    have hXfin2 : X.FinOn := by
      intro i hi j hj
      exact hXfin i (hXr ▸ hi) j (hXc ▸ hj)
    have ht1 := Mat.FinOn.mulT hAhatfin hDnsfin (hAc.trans hDr.symm)
    have hS := Mat.FinOn.mulT hDnsfin ht1 (by simp [Mat.mulT, hDc, hAr])
    have ht2 := Mat.FinOn.mulT hXfin2 hWfin (by rw [hXc]; rfl)
    have hSt := Mat.FinOn.mulT hS ht2 (by simp [Mat.mulT, hDc, hXr])
    have hcon := Mat.FinOn.reluM_nonneg hSt
    intro i hi j hj
    refine hcon i ?_ j ?_
    · simpa [Mat.mulT, hDr] using hi
    · simpa [Mat.mulT] using hj

/-- C5 counterexample: the 1-node graph with adjacency [[0]] is a valid
construction (square, input_dim = N = 1, output_dim = 1 positive), and
on the correctly shaped feature matrix [[0]] forward succeeds, yet its
single output entry is nan: not a value that is at least zero. -/
theorem C5_counterexample :
    adjZero1.rows = 1 ∧ adjZero1.cols = 1 ∧
      featZero1.rows = 1 ∧ featZero1.cols = 1 ∧
      ((GCNLayer.init 1 1 adjZero1 wHalf).bind
          (fun l => l.forward featZero1)).map
        (fun H => (H.entry 0 0, (H.entry 0 0).isNonneg)) = .ok (.nan, false) := by
  refine ⟨rfl, rfl, rfl, rfl, ?_⟩
  norm_num [GCNLayer.init, GCNLayer.forward, Mat.badd, Mat.mm, Mat.baddT,
    Mat.mulT, Mat.reluM, Mat.map1, Mat.diag, diag_embed, Mat.powNegHalf,
    Mat.eye, Mat.onesM, BCompat, bdim, bidx, sumTo, EV.add, EV.mul,
    EV.powNegHalf, EV.relu, EV.isNonneg, Except.bind, Except.map,
    adjZero1, featZero1, wHalf]

/-- C5 amended: for a valid square construction in which every row sum
of A is a positive rational and every entry of the feature matrix is
finite, forward returns an N x output_dim matrix all of whose entries
are nonnegative rationals.  (Without the positivity and finiteness
conditions the zero-degree normalization produces nan outputs, which
are not at least zero; see the counterexample.) -/
theorem C5_shape_nonneg (N o : Nat) (A : Mat) (w : Nat → Nat → ℚ)
    (l : GCNLayer) (h1 : A.rows = N) (h2 : A.cols = N)
    (hinit : GCNLayer.init N o A w = .ok l)
    (hpos : ∀ i < N, ∃ q : ℚ, rowSumN A i = .fin q ∧ 0 < q)
    (X : Mat) (hXr : X.rows = N) (hXc : X.cols = N)
    (hXfin : ∀ i < N, ∀ j < N, (X.entry i j).isFinite = true) :
    ∃ H, l.forward X = .ok H ∧ H.rows = N ∧ H.cols = o ∧
      ∀ i < N, ∀ j < o, ∃ q : ℚ, H.entry i j = .fin q ∧ 0 ≤ q := by
  have hl : mkGCN N o A w = l :=
    Except.ok.inj ((init_ok N o A w h1 h2).symm.trans hinit)
  subst hl
  exact forward_fin_all N o A w h1 h2 hpos X hXr hXc hXfin

/-- C6 counterexample: on the 1-node graph with adjacency [[0]] the
isolated node does give a non-finite normalizer entry (positive
infinity), but with feature [[-1]] the pre-activation is negative
infinity and relu clamps it to zero, so the corresponding output row is
entirely finite: the non-finiteness does not reach the output. -/
theorem C6_counterexample :
    (GCNLayer.init 1 1 adjZero1 wHalf).map
        (fun l => l.D_neg_sqrt.entry 0 0) = .ok .pinf ∧
      ((GCNLayer.init 1 1 adjZero1 wHalf).bind
          (fun l => l.forward featNeg1)).map
        (fun H => (H.entry 0 0, (H.entry 0 0).isFinite)) = .ok (.fin 0, true) := by
  constructor <;>
    norm_num [GCNLayer.init, GCNLayer.forward, Mat.badd, Mat.mm, Mat.baddT,
      Mat.mulT, Mat.reluM, Mat.map1, Mat.diag, diag_embed, Mat.powNegHalf,
      Mat.eye, Mat.onesM, BCompat, bdim, bidx, sumTo, EV.add, EV.mul,
      EV.powNegHalf, EV.relu, EV.isFinite, Except.bind, Except.map,
      adjZero1, featNeg1, wHalf]

/-- C6 amended: for a valid square construction with a node iN whose
row of A is entirely zero, construction and forward raise no error, the
stored normalizer holds positive infinity (a non-finite value) at that
node, every pre-activation entry of row iN is non-finite, and after
relu every entry of output row iN is non-finite or exactly zero (relu
maps negative infinity to zero, so finite zeros can appear in place of
the non-finite values the claim promised). -/
theorem C6_isolated_node (N o : Nat) (A : Mat) (w : Nat → Nat → ℚ)
    (l : GCNLayer) (iN : Nat) (h1 : A.rows = N) (h2 : A.cols = N)
    (hinit : GCNLayer.init N o A w = .ok l) (hi : iN < N)
    (hrow : ∀ j < N, A.entry iN j = .fin 0)
    (X : Mat) (hXr : X.rows = N) (hXc : X.cols = N) :
    l.D_neg_sqrt.entry iN iN = .pinf ∧
      ∃ H, l.forward X = .ok H ∧
        (∀ j < o, ((((l.D_neg_sqrt.mulT (l.A_hat.mulT l.D_neg_sqrt)).mulT
            (X.mulT l.W)).entry iN j).isFinite = false)) ∧
        (∀ j < o, (H.entry iN j).isFinite = false ∨ H.entry iN j = .fin 0) := by
  have hl : mkGCN N o A w = l :=
    Except.ok.inj ((init_ok N o A w h1 h2).symm.trans hinit)
  subst hl
  obtain ⟨hAr, hAc⟩ := mkGCN_Ahat_dims N o A w h1 h2
  obtain ⟨hDr, hDc⟩ := mkGCN_Dns_dims N o A w h1
  have hdeg : rowSumN A iN = .fin 0 := by
    apply sumTo_all_zero
    intro k hk
    exact hrow k (h2 ▸ hk)
  have hDnsii : (mkGCN N o A w).D_neg_sqrt.entry iN iN = .pinf := by
    rw [mkGCN_Dns_entry]
    simp [hdeg, EV.powNegHalf_zero]
  have hpre : ∀ j < o,
      ((((mkGCN N o A w).D_neg_sqrt.mulT ((mkGCN N o A w).A_hat.mulT
        (mkGCN N o A w).D_neg_sqrt)).mulT
          (X.mulT (mkGCN N o A w).W)).entry iN j).isFinite = false := by
    intro j _
    rw [Bool.eq_false_iff]
    intro hfin
    simp only [Mat.mulT, hDc] at hfin
    rw [isFinite_sumTo] at hfin
    have hterm := hfin iN hi
    have hS : ((sumTo (fun m => ((mkGCN N o A w).D_neg_sqrt.entry iN m).mul
        (sumTo (fun u => ((mkGCN N o A w).A_hat.entry m u).mul
          ((mkGCN N o A w).D_neg_sqrt.entry u iN))
          (mkGCN N o A w).A_hat.cols)) N)).isFinite = false := by
      rw [Bool.eq_false_iff]
      intro hfin2
      rw [isFinite_sumTo] at hfin2
      have ht2 := hfin2 iN hi
      rw [hDnsii, EV.isFinite_mul_left EV.pinf _ rfl] at ht2
      simp at ht2
    rw [EV.isFinite_mul_left _ _ hS] at hterm
    simp at hterm
  exact ⟨hDnsii, _, forward_mk_ok N o A w h1 h2 X hXr hXc, hpre,
    fun j hj => EV.relu_not_finite _ (hpre j hj)⟩

/-- Entry of a matrix product, as a contraction over the inner index. -/
theorem Mat.mulT_entry (a b : Mat) (i j : Nat) :
    (a.mulT b).entry i j
      = sumTo (fun k => (a.entry i k).mul (b.entry k j)) a.cols := rfl

/-- The inverse square root stand-in is exact at one. -/
theorem ratInvSqrt_one : ratInvSqrt 1 = 1 := by
  norm_num [ratInvSqrt, natSqrt, natSqrtLoop]

/-- pow (x, -0.5) at finite one is finite one. -/
theorem EV.powNegHalf_one : (EV.fin 1).powNegHalf = .fin 1 := by
  rw [EV.powNegHalf_pos 1 one_pos, ratInvSqrt_one]

/-- Each row sum of the identity matrix is one. -/
theorem rowSum_eye (N i : Nat) (hi : i < N) :
    rowSumN (Mat.eye N) i = .fin 1 := by
  unfold rowSumN
  rw [show (Mat.eye N).cols = N from rfl,
    sumTo_single _ N i hi (fun k _ hk => by simp [Mat.eye, Ne.symm hk])]
  simp [Mat.eye]

/-- C7: with A the N x N identity and input_dim = N, every stored
diagonal degree is one, the stored normalizer is the identity, the
stored self-looped adjacency is twice the identity, and forward on a
finite N x N feature matrix returns relu (2 (X W)). -/
theorem C7_identity_adjacency (N o : Nat) (w : Nat → Nat → ℚ)
    (l : GCNLayer) (hinit : GCNLayer.init N o (Mat.eye N) w = .ok l)
    (X : Mat) (hXr : X.rows = N) (hXc : X.cols = N)
    (hXfin : ∀ i < N, ∀ j < N, (X.entry i j).isFinite = true) :
    (∀ i < N, l.D.entry i i = .fin 1) ∧
      l.D_neg_sqrt.Eq (Mat.eye N) ∧
      l.A_hat.Eq (Mat.smul 2 (Mat.eye N)) ∧
      ∃ H, l.forward X = .ok H ∧ H.Eq ((Mat.smul 2 (X.mulT l.W)).reluM) := by
  have hl : mkGCN N o (Mat.eye N) w = l :=
    Except.ok.inj ((init_ok N o (Mat.eye N) w rfl rfl).symm.trans hinit)
  subst hl
  obtain ⟨hAr, hAc⟩ := mkGCN_Ahat_dims N o (Mat.eye N) w rfl rfl
  obtain ⟨hDr, hDc⟩ := mkGCN_Dns_dims N o (Mat.eye N) w rfl
  have hDns : ∀ i j : Nat, i < N →
      (mkGCN N o (Mat.eye N) w).D_neg_sqrt.entry i j
        = if i = j then .fin 1 else .fin 0 := by
    intro i j hi
    rw [mkGCN_Dns_entry, rowSum_eye N i hi]
    split <;> [rw [EV.powNegHalf_one] ; rfl]
  have hAhat : ∀ i j : Nat, i < N → j < N →
      (mkGCN N o (Mat.eye N) w).A_hat.entry i j
        = if i = j then .fin 2 else .fin 0 := by
    intro i j hi hj
    rw [mkGCN_Ahat_entry N o (Mat.eye N) w rfl rfl i j hi hj]
    by_cases hij : i = j
    · simp only [Mat.eye, hij, if_pos rfl, EV.add]
      norm_num
    · simp [Mat.eye, hij, EV.add]
  have hDnsEq : (mkGCN N o (Mat.eye N) w).D_neg_sqrt.Eq (Mat.eye N) := by
    refine ⟨hDr, hDc, fun i hi j hj => ?_⟩
    rw [hDns i j (hDr ▸ hi)]
    rfl
  have hAhatEq : (mkGCN N o (Mat.eye N) w).A_hat.Eq (Mat.smul 2 (Mat.eye N)) := by
    refine ⟨hAr, hAc, fun i hi j hj => ?_⟩
    rw [hAhat i j (hAr ▸ hi) (hAc ▸ hj)]
    by_cases hij : i = j <;> simp [Mat.smul, Mat.eye, hij, EV.mul]
  have hD1 : ∀ i < N, (mkGCN N o (Mat.eye N) w).D.entry i i = .fin 1 := by
    intro i hi
    rw [mkGCN_D_entry]
    simp [rowSum_eye N i hi]
  have ht2fin : (X.mulT (mkGCN N o (Mat.eye N) w).W).FinOn := by
    refine Mat.FinOn.mulT ?_ (fun _ _ _ _ => rfl) (by rw [hXc]; rfl)
    intro i hi j hj
    exact hXfin i (hXr ▸ hi) j (hXc ▸ hj)
  have ht1 : ∀ m k : Nat, m < N → k < N →
      ((mkGCN N o (Mat.eye N) w).A_hat.mulT
        (mkGCN N o (Mat.eye N) w).D_neg_sqrt).entry m k
          = if m = k then .fin 2 else .fin 0 := by
    intro m k hm hk
    rw [Mat.mulT_entry, hAc,
      sumTo_single _ N k hk (fun u hu huk => by
        rw [hDns u k hu, if_neg huk, hAhat m u hm hu]
        split <;> simp [EV.mul]),
      hDns k k hk, if_pos rfl, EV.mul_one_ev, hAhat m k hm hk]
  have hS : ∀ i k : Nat, i < N → k < N →
      ((mkGCN N o (Mat.eye N) w).D_neg_sqrt.mulT
        ((mkGCN N o (Mat.eye N) w).A_hat.mulT
          (mkGCN N o (Mat.eye N) w).D_neg_sqrt)).entry i k
          = if i = k then .fin 2 else .fin 0 := by
    intro i k hi hk
    rw [Mat.mulT_entry, hDc,
      sumTo_single _ N i hi (fun m hm hmi => by
        rw [hDns i m hi, if_neg (Ne.symm hmi), ht1 m k hm hk]
        split <;> simp [EV.mul]),
      hDns i i hi, if_pos rfl, EV.one_mul_ev, ht1 i k hi hk]
  refine ⟨hD1, hDnsEq, hAhatEq, _,
    forward_mk_ok N o (Mat.eye N) w rfl rfl X hXr hXc, ?_⟩
  apply Mat.Eq.reluM_congr
  have hrows : (((mkGCN N o (Mat.eye N) w).D_neg_sqrt.mulT
      ((mkGCN N o (Mat.eye N) w).A_hat.mulT
        (mkGCN N o (Mat.eye N) w).D_neg_sqrt)).mulT
          (X.mulT (mkGCN N o (Mat.eye N) w).W)).rows = N := by
    simp [Mat.mulT, hDr]
  have hcolsS : ((mkGCN N o (Mat.eye N) w).D_neg_sqrt.mulT
      ((mkGCN N o (Mat.eye N) w).A_hat.mulT
        (mkGCN N o (Mat.eye N) w).D_neg_sqrt)).cols = N := by
    simp [Mat.mulT, hDc]
  refine ⟨by rw [hrows]; simp [Mat.smul, Mat.mulT, hXr],
    rfl, fun i hi j hj => ?_⟩
  rw [hrows] at hi
  have hj2 : j < o := hj
  rw [Mat.mulT_entry, hcolsS,
    sumTo_single _ N i hi (fun k hk hki => by
      rw [hS i k hi hk, if_neg (Ne.symm hki)]
      exact EV.zero_mul_of_finite _
        (ht2fin k (by simpa [Mat.mulT, hXr] using hk) j hj2)),
    hS i i hi hi, if_pos rfl]
  rfl

/-- C8: forward is deterministic and reads only the stored A_hat,
D_neg_sqrt and W: two layers agreeing on those three fields produce
identical results on every input, so repeating a call with X and W
unchanged repeats the output. -/
theorem C8_forward_deterministic (l l2 : GCNLayer)
    (hA : l.A_hat = l2.A_hat) (hD : l.D_neg_sqrt = l2.D_neg_sqrt)
    (hW : l.W = l2.W) (X : Mat) : l.forward X = l2.forward X := by
  unfold GCNLayer.forward
  rw [hA, hD, hW]

/-- The state passing form of forward returns the same result as
forward, paired with the unchanged layer. -/
theorem forwardS_eq (l : GCNLayer) (X : Mat) :
    l.forwardS X = (l.forward X).map (fun H => (H, l)) := by
  unfold GCNLayer.forwardS GCNLayer.forward
  cases h1 : l.A_hat.mm l.D_neg_sqrt with
  | error e => rfl
  | ok t1 =>
    rw [exc_bind_ok, exc_bind_ok]
    cases h2 : l.D_neg_sqrt.mm t1 with
    | error e => rfl
    | ok s1 =>
      rw [exc_bind_ok, exc_bind_ok]
      cases h3 : X.mm l.W with
      | error e => rfl
      | ok t2 =>
        rw [exc_bind_ok, exc_bind_ok]
        cases h4 : s1.mm t2 <;> rfl

/-- C9: a successful forward call mutates no stored state: the layer in
the post-state is the pre-state layer, its A, A_hat, D, D_neg_sqrt and
W fields included, and the returned matrix is the plain forward result,
so the tensors computed at construction stay constant across calls. -/
theorem C9_forward_no_mutation (l : GCNLayer) (X : Mat)
    (r : Mat × GCNLayer) (h : l.forwardS X = .ok r) :
    r.2 = l ∧ r.2.A = l.A ∧ r.2.A_hat = l.A_hat ∧ r.2.D = l.D ∧
      r.2.D_neg_sqrt = l.D_neg_sqrt ∧ r.2.W = l.W ∧
      l.forward X = .ok r.1 := by
  rw [forwardS_eq] at h
  cases hf : l.forward X with
  | error e =>
    rw [hf] at h
    exact absurd h (by simp [Except.map])
  | ok H =>
    rw [hf] at h
    simp only [Except.map, Except.ok.injEq] at h
    subst h
    refine ⟨rfl, rfl, rfl, rfl, rfl, rfl, ?_⟩
    simp [hf]

/-- C10: for a valid square construction with strictly positive row
sums, the stored D_neg_sqrt is exactly the diagonal matrix of the
inverse square roots of the row sums, with zero off the diagonal; the
intermediate elementwise power of the whole degree matrix puts positive
infinity at every off-diagonal position, but the following diagonal
extraction and re-embedding discard those values, and forward outputs
on finite inputs stay entirely finite. -/
theorem C10_normalizer_refinement (N o : Nat) (A : Mat)
    (w : Nat → Nat → ℚ) (l : GCNLayer) (h1 : A.rows = N) (h2 : A.cols = N)
    (hinit : GCNLayer.init N o A w = .ok l)
    (hpos : ∀ i < N, ∃ q : ℚ, rowSumN A i = .fin q ∧ 0 < q) :
    l.D_neg_sqrt.Eq (specDnegSqrt A) ∧
      (∀ i < N, ∀ j < N, i ≠ j →
        (l.D.powNegHalf).entry i j = .pinf ∧ l.D_neg_sqrt.entry i j = .fin 0) ∧
      (∀ X : Mat, X.rows = N → X.cols = N →
        (∀ i < N, ∀ j < N, (X.entry i j).isFinite = true) →
        ∃ H, l.forward X = .ok H ∧
          ∀ i < N, ∀ j < o, (H.entry i j).isFinite = true) := by
  have hl : mkGCN N o A w = l :=
    Except.ok.inj ((init_ok N o A w h1 h2).symm.trans hinit)
  subst hl
  refine ⟨mkGCN_Dns_Eq_spec N o A w h1, ?_, ?_⟩
  · intro i _ j _ hij
    constructor
    · show EV.powNegHalf ((mkGCN N o A w).D.entry i j) = .pinf
      rw [mkGCN_D_entry, if_neg hij, EV.powNegHalf_zero]
    · rw [mkGCN_Dns_entry, if_neg hij]
  · intro X hXr hXc hXfin
    obtain ⟨H, hfwd, _, _, hq⟩ :=
      forward_fin_all N o A w h1 h2 hpos X hXr hXc hXfin
    refine ⟨H, hfwd, fun i hi j hj => ?_⟩
    obtain ⟨q, hq1, _⟩ := hq i hi j hj
    rw [hq1]
    rfl

/-- Witness for C1 on the concrete two-node graph. -/
theorem C1_witness :
    ∃ H, (mkGCN 2 1 adjTwo wHalf).forward featTwo = .ok H ∧
      H.Eq (((specS adjTwo).mulT
        (featTwo.mulT (mkGCN 2 1 adjTwo wHalf).W)).reluM) :=
  C1_forward_formula 2 1 adjTwo wHalf (mkGCN 2 1 adjTwo wHalf) rfl rfl
    (init_ok 2 1 adjTwo wHalf rfl rfl) featTwo rfl rfl

/-- Witness for C2 on the concrete two-node graph, at node 0. -/
theorem C2_witness :
    (mkGCN 2 1 adjTwo wHalf).D.entry 0 0 = rowSumN adjTwo 0 ∧
      (adjTwo.mulT (Mat.onesM 2)).diag.entry 0 = rowSumN adjTwo 0 :=
  C2_degree_from_A 2 1 adjTwo wHalf (mkGCN 2 1 adjTwo wHalf) rfl rfl
    (init_ok 2 1 adjTwo wHalf rfl rfl) 0 (by decide)

/-- Witness for C3: a 1 x 2 feature matrix on a 2-node layer makes
forward fail with the shape error. -/
theorem C3_witness :
    (mkGCN 2 1 adjTwo wHalf).forward featBad = .error .shape :=
  (C3_forward_shape 2 1 adjTwo wHalf (mkGCN 2 1 adjTwo wHalf) rfl rfl
    (init_ok 2 1 adjTwo wHalf rfl rfl) featBad).2 (Or.inl (by decide))

/-- Witness for the amended C5 on the concrete two-node graph with unit
degrees. -/
theorem C5_witness :
    ∃ H, (mkGCN 2 1 adjTwo wHalf).forward featTwo = .ok H ∧
      H.rows = 2 ∧ H.cols = 1 ∧
      ∀ i < 2, ∀ j < 1, ∃ q : ℚ, H.entry i j = .fin q ∧ 0 ≤ q :=
  C5_shape_nonneg 2 1 adjTwo wHalf (mkGCN 2 1 adjTwo wHalf) rfl rfl
    (init_ok 2 1 adjTwo wHalf rfl rfl)
    (by
      intro i hi
      interval_cases i <;>
        exact ⟨1, by norm_num [rowSumN, sumTo, adjTwo, EV.add], one_pos⟩)
    featTwo rfl rfl (fun i _ j _ => rfl)

/-- Witness for the amended C6 on the concrete two-node graph whose
node 0 is isolated. -/
theorem C6_witness :
    (mkGCN 2 1 adjIso wHalf).D_neg_sqrt.entry 0 0 = .pinf ∧
      ∃ H, (mkGCN 2 1 adjIso wHalf).forward featTwo = .ok H ∧
        (∀ j < 1, ((((mkGCN 2 1 adjIso wHalf).D_neg_sqrt.mulT
            ((mkGCN 2 1 adjIso wHalf).A_hat.mulT
              (mkGCN 2 1 adjIso wHalf).D_neg_sqrt)).mulT
                (featTwo.mulT (mkGCN 2 1 adjIso wHalf).W)).entry 0 j).isFinite
                  = false) ∧
        (∀ j < 1, (H.entry 0 j).isFinite = false ∨ H.entry 0 j = .fin 0) :=
  C6_isolated_node 2 1 adjIso wHalf (mkGCN 2 1 adjIso wHalf) 0 rfl rfl
    (init_ok 2 1 adjIso wHalf rfl rfl) (by decide)
    (fun j _ => by simp [adjIso]) featTwo rfl rfl

/-- Witness for C7 with the 2 x 2 identity adjacency. -/
theorem C7_witness :
    (∀ i < 2, (mkGCN 2 1 (Mat.eye 2) wHalf).D.entry i i = .fin 1) ∧
      (mkGCN 2 1 (Mat.eye 2) wHalf).D_neg_sqrt.Eq (Mat.eye 2) ∧
      (mkGCN 2 1 (Mat.eye 2) wHalf).A_hat.Eq (Mat.smul 2 (Mat.eye 2)) ∧
      ∃ H, (mkGCN 2 1 (Mat.eye 2) wHalf).forward featTwo = .ok H ∧
        H.Eq ((Mat.smul 2
          (featTwo.mulT (mkGCN 2 1 (Mat.eye 2) wHalf).W)).reluM) :=
  C7_identity_adjacency 2 1 wHalf (mkGCN 2 1 (Mat.eye 2) wHalf)
    (init_ok 2 1 (Mat.eye 2) wHalf rfl rfl) featTwo rfl rfl
    (fun _ _ _ _ => rfl)

/-- Witness for C8: two layers differing only in the stored A field
produce the same forward result on a concrete input. -/
theorem C8_witness :
    (mkGCN 2 1 adjTwo wHalf).forward featTwo =
      ({ mkGCN 2 1 adjTwo wHalf with A := Mat.eye 2 } : GCNLayer).forward
        featTwo :=
  C8_forward_deterministic (mkGCN 2 1 adjTwo wHalf)
    ({ mkGCN 2 1 adjTwo wHalf with A := Mat.eye 2 }) rfl rfl rfl featTwo

/-- Witness for C9 on a concrete successful forward call. -/
theorem C9_witness :
    ∃ r : Mat × GCNLayer,
      (mkGCN 2 1 adjTwo wHalf).forwardS featTwo = .ok r ∧
        r.2 = mkGCN 2 1 adjTwo wHalf ∧
        (mkGCN 2 1 adjTwo wHalf).forward featTwo = .ok r.1 := by
  have hS : (mkGCN 2 1 adjTwo wHalf).forwardS featTwo =
      .ok ((((mkGCN 2 1 adjTwo wHalf).D_neg_sqrt.mulT
        ((mkGCN 2 1 adjTwo wHalf).A_hat.mulT
          (mkGCN 2 1 adjTwo wHalf).D_neg_sqrt)).mulT
            (featTwo.mulT (mkGCN 2 1 adjTwo wHalf).W)).reluM,
        mkGCN 2 1 adjTwo wHalf) := by
    rw [forwardS_eq, forward_mk_ok 2 1 adjTwo wHalf rfl rfl featTwo rfl rfl]
    rfl
  have h := C9_forward_no_mutation (mkGCN 2 1 adjTwo wHalf) featTwo _ hS
  exact ⟨_, hS, h.1, h.2.2.2.2.2.2⟩

/-- Witness for C10 on the concrete two-node graph with unit degrees. -/
theorem C10_witness :
    (mkGCN 2 1 adjTwo wHalf).D_neg_sqrt.Eq (specDnegSqrt adjTwo) ∧
      (∀ i < 2, ∀ j < 2, i ≠ j →
        ((mkGCN 2 1 adjTwo wHalf).D.powNegHalf).entry i j = .pinf ∧
          (mkGCN 2 1 adjTwo wHalf).D_neg_sqrt.entry i j = .fin 0) ∧
      (∀ X : Mat, X.rows = 2 → X.cols = 2 →
        (∀ i < 2, ∀ j < 2, (X.entry i j).isFinite = true) →
        ∃ H, (mkGCN 2 1 adjTwo wHalf).forward X = .ok H ∧
          ∀ i < 2, ∀ j < 1, (H.entry i j).isFinite = true) :=
  C10_normalizer_refinement 2 1 adjTwo wHalf (mkGCN 2 1 adjTwo wHalf)
    rfl rfl (init_ok 2 1 adjTwo wHalf rfl rfl)
    (by
      intro i hi
      interval_cases i <;>
        exact ⟨1, by norm_num [rowSumN, sumTo, adjTwo, EV.add], one_pos⟩)
